import Mathlib

/-!
Verification of the Sudoku solver (`3_sudoku.py`).

The board is shallowly embedded as a function `Nat → Nat → Int`; the Python
code only ever reads or writes cells with both indices in `0..8`.  Mutating
methods of the Python class (`solve`, `is_solved`) are embedded as functions
returning the new board next to their result, so that frame claims about the
mutation can be stated.  `solve`, whose recursion is bounded by the number of
empty cells, is embedded with an explicit fuel parameter (`solveFuel`); the
fuel is proved irrelevant beyond 81, the maximal number of empty cells.
-/

def Board : Type := Nat → Nat → Int

/-- Writing a single cell of the board (`self.board[row][col] = v`). -/
def setCell (b : Board) (row col : Nat) (v : Int) : Board :=
  fun i j => if i = row ∧ j = col then v else b i j

/-- The digit list `range(1, 10)` used by the solver and the hint engine. -/
def nums : List Int := [1, 2, 3, 4, 5, 6, 7, 8, 9]

/-- All cell coordinates in row-major order: the nested
`for i in range(9): for j in range(9)` scan order. -/
def cellsList : List (Nat × Nat) :=
  (List.range 9).flatMap fun i => (List.range 9).map fun j => (i, j)

/-- `Sudoku.find_empty`: first cell containing `0` in row-major order. -/
def find_empty (b : Board) : Option (Nat × Nat) :=
  cellsList.find? fun p => b p.1 p.2 == 0

/-- `Sudoku.is_valid`: the three loops checking the row, the column and the
3x3 box, each excluding the cell `(row, col)` itself. -/
def is_valid (b : Board) (num : Int) (row col : Nat) : Bool :=
  ((List.range 9).all fun j => !(b row j == num && j != col)) &&
  ((List.range 9).all fun i => !(b i col == num && i != row)) &&
  ((List.range 3).all fun di => (List.range 3).all fun dj =>
    !(b (row / 3 * 3 + di) (col / 3 * 3 + dj) == num &&
      !(row / 3 * 3 + di == row && col / 3 * 3 + dj == col)))

/-- The digit loop of `Sudoku.solve` (`for num in range(1, 10)`); `recur` is
the recursive call on the board with the tentative placement, and a failed
recursion is followed by the backtracking reset of the cell to `0`. -/
def tryNums (recur : Board → Option (Bool × Board)) (row col : Nat) :
    List Int → Board → Option (Bool × Board)
  | [], b => some (false, b)
  | num :: rest, b =>
    if is_valid b num row col then
      match recur (setCell b row col num) with
      | none => none
      | some (true, b2) => some (true, b2)
      | some (false, b2) => tryNums recur row col rest (setCell b2 row col 0)
    else
      tryNums recur row col rest b

/-- `Sudoku.solve` with an explicit fuel bounding the recursion depth;
`none` means the fuel ran out (proved impossible for fuel above the number
of empty cells, see `solveFuel_big_eq`). -/
def solveFuel : Nat → Board → Option (Bool × Board)
  | 0 => fun _ => none
  | fuel + 1 => fun b =>
    match find_empty b with
    | none => some (true, b)
    | some rc => tryNums (solveFuel fuel) rc.1 rc.2 nums b

/-- `Sudoku.solve`: 82 units of fuel always suffice (fewer than 82 empty
cells exist, and each recursive call is on a board with one more filled
cell), so the default is never taken. -/
def solve (b : Board) : Bool × Board :=
  (solveFuel 82 b).getD (false, b)

/-- The verification loop of `Sudoku.is_solved`: each cell's digit is
temporarily removed, checked with `is_valid`, and written back (also on the
early `return False` path). -/
def is_solvedAux : List (Nat × Nat) → Board → Bool × Board
  | [], b => (true, b)
  | (i, j) :: rest, b =>
    if is_valid (setCell b i j 0) (b i j) i j then
      is_solvedAux rest (setCell (setCell b i j 0) i j (b i j))
    else
      (false, setCell (setCell b i j 0) i j (b i j))

/-- `Sudoku.is_solved`: the empty-cell check followed by the per-cell
verification loop; returns the board next to the result so that the claim
that the method never mutates the board can be stated. -/
def is_solved (b : Board) : Bool × Board :=
  if cellsList.any (fun p => b p.1 p.2 == 0) then (false, b)
  else is_solvedAux cellsList b

/-- The candidate list `valid_nums` computed by `Sudoku.get_hint`. -/
def valid_nums (b : Board) (i j : Nat) : List Int :=
  nums.filter fun num => is_valid b num i j

/-- The first scan of `Sudoku.get_hint`: the first empty cell whose
`valid_nums` list has exactly one element, with that element. -/
def hintPhase1 (b : Board) : Option (Nat × Nat × Int) :=
  cellsList.findSome? fun p =>
    if b p.1 p.2 = 0 then
      if (valid_nums b p.1 p.2).length = 1 then
        (valid_nums b p.1 p.2).head?.map fun d => (p.1, p.2, d)
      else none
    else none

/-- The second scan of `Sudoku.get_hint`: the first empty cell for which
some digit passes `is_valid`, with the first such digit in ascending
order. -/
def hintPhase2 (b : Board) : Option (Nat × Nat × Int) :=
  cellsList.findSome? fun p =>
    if b p.1 p.2 = 0 then
      (nums.find? fun num => is_valid b num p.1 p.2).map fun d => (p.1, p.2, d)
    else none

/-- `Sudoku.get_hint`: the forced-move scan, then the any-legal-move scan. -/
def get_hint (b : Board) : Option (Nat × Nat × Int) :=
  match hintPhase1 b with
  | some h => some h
  | none => hintPhase2 b

/-- The errors that can escape `Sudoku.from_string`: the two `ValueError`s
it raises itself ("String must be 81 characters long, got {n}" and
"Invalid character '{c}' at position {p}"), and the distinct uncaught
`ValueError` ("invalid literal for int() ...") raised by `int(char)` when
`char.isdigit()` is true but the character is not a decimal digit (for
example a superscript). -/
inductive ParseError where
  | invalidLength : Nat → ParseError
  | invalidCharacter : Char → Nat → ParseError
  | intLiteralError : Char → ParseError
deriving DecidableEq

/-- The error raised by `Sudoku.load_board` ("Board must be 9x9"). -/
inductive DimError where
  | invalidDimensions : DimError
deriving DecidableEq

/-- The whitespace characters removed by Python's `str.split()` (used by
`from_string` via `''.join(s.split())`): the code points for which CPython's
`Py_UNICODE_ISSPACE` holds — the ASCII controls 09-0D, the separators
1C-1F, space, NEL 85, and the Unicode space characters A0, 1680,
2000-200A, 2028, 2029, 202F, 205F, 3000. This set is the same in every
CPython 3.x. -/
def isPyWS (c : Char) : Bool :=
  (0x09 ≤ c.toNat ∧ c.toNat ≤ 0x0D) ∨ (0x1C ≤ c.toNat ∧ c.toNat ≤ 0x1F) ∨
  c.toNat = 0x20 ∨ c.toNat = 0x85 ∨ c.toNat = 0xA0 ∨ c.toNat = 0x1680 ∨
  (0x2000 ≤ c.toNat ∧ c.toNat ≤ 0x200A) ∨ c.toNat = 0x2028 ∨
  c.toNat = 0x2029 ∨ c.toNat = 0x202F ∨ c.toNat = 0x205F ∨ c.toNat = 0x3000

/-- `''.join(s.split())`: remove all whitespace. -/
def pystrip (s : List Char) : List Char := s.filter fun c => !(isPyWS c)

/-- The first code points of the non-ASCII runs of ten decimal digit
characters (general category Nd, the characters `int()` converts), per the
Unicode 15.0 database used by CPython 3.12; older interpreters lack the
later ranges, and those characters then fall to the invalid-character
error instead. -/
def ndBasesSupp : List Nat :=
  [0x660, 0x6F0, 0x7C0, 0x966, 0x9E6, 0xA66, 0xAE6, 0xB66, 0xBE6, 0xC66,
   0xCE6, 0xD66, 0xDE6, 0xE50, 0xED0, 0xF20, 0x1040, 0x1090, 0x17E0,
   0x1810, 0x1946, 0x19D0, 0x1A80, 0x1A90, 0x1B50, 0x1BB0, 0x1C40, 0x1C50,
   0xA620, 0xA8D0, 0xA900, 0xA9D0, 0xA9F0, 0xAA50, 0xABF0, 0xFF10,
   0x104A0, 0x10D30, 0x11066, 0x110F0, 0x11136, 0x111D0, 0x112F0, 0x11450,
   0x114D0, 0x11650, 0x116C0, 0x11730, 0x118E0, 0x11950, 0x11C50, 0x11D50,
   0x11DA0, 0x11F50, 0x16A60, 0x16AC0, 0x16B50, 0x1D7CE, 0x1D7D8, 0x1D7E2,
   0x1D7EC, 0x1D7F6, 0x1E140, 0x1E2F0, 0x1E4F0, 0x1E950, 0x1FBF0]

/-- The numeric value `int(c)` of a decimal digit character, or none when
`int(c)` would raise: the ASCII digits, then the supplementary runs of ten
from `ndBasesSupp`. -/
def pyDecDigit (c : Char) : Option Nat :=
  if 0x30 ≤ c.toNat ∧ c.toNat ≤ 0x39 then some (c.toNat - 0x30)
  else ndBasesSupp.findSome? fun b =>
    if b ≤ c.toNat ∧ c.toNat ≤ b + 9 then some (c.toNat - b) else none

/-- The code point ranges with Numeric_Type=Digit but not Decimal
(superscripts, subscripts, circled digits, ...), per the Unicode 15.0
database: the characters for which Python's `isdigit()` is true but
`int()` raises its own `ValueError`. -/
def digitOnlyRanges : List (Nat × Nat) :=
  [(0xB2, 0xB3), (0xB9, 0xB9), (0x1369, 0x1371), (0x19DA, 0x19DA),
   (0x2070, 0x2070), (0x2074, 0x2079), (0x2080, 0x2089), (0x2460, 0x2468),
   (0x2474, 0x247C), (0x2488, 0x2490), (0x24EA, 0x24EA), (0x24F5, 0x24FD),
   (0x24FF, 0x24FF), (0x2776, 0x277E), (0x2780, 0x2788), (0x278A, 0x2792),
   (0x10A40, 0x10A43), (0x10E60, 0x10E68), (0x11052, 0x1105A),
   (0x1F100, 0x1F10A)]

/-- Python's `c.isdigit() and int(c) raises`: `c` has Numeric_Type=Digit
but is not a decimal digit. -/
def pyDigitNonDec (c : Char) : Bool :=
  digitOnlyRanges.any fun r => r.1 ≤ c.toNat ∧ c.toNat ≤ r.2

/-- The per-character decoding of `from_string`: `'.'` and `'0'` give an
empty cell, a decimal digit character with `1 <= int(char) <= 9` gives its
value, anything else carries no cell value (and is either rejected with
the invalid-character error or, for an isdigit-but-not-decimal character,
crashes `int()`; see `parseCells`). -/
def charCell (c : Char) : Option Int :=
  if c = '.' ∨ c = '0' then some 0
  else match pyDecDigit c with
    | some v => if 1 ≤ v ∧ v ≤ 9 then some (v : Int) else none
    | none => none

/-- The character loop of `from_string`, scanning positions in increasing
flat order and stopping at the first character that decodes to no cell:
with the invalid-character error naming the character and its position,
except that a character whose `isdigit()` is true but which is not a
decimal digit makes `int(char)` itself raise. -/
def parseCells : List Char → Nat → Except ParseError (List Int)
  | [], _ => .ok []
  | c :: rest, pos =>
    match charCell c with
    | some v => (parseCells rest (pos + 1)).map fun cells => v :: cells
    | none =>
      if pyDigitNonDec c then .error (.intLiteralError c)
      else .error (.invalidCharacter c pos)

/-- View of the flat 81-cell list as a board (`board[i][j] = cells[i*9+j]`). -/
def boardOfCells (cells : List Int) : Board :=
  fun i j => (cells.get? (i * 9 + j)).getD 0

/-- `Sudoku.from_string`: strip whitespace, check the length is 81, decode
the characters row-major. -/
def from_string (s : List Char) : Except ParseError Board :=
  let t := pystrip s
  if t.length ≠ 81 then .error (.invalidLength t.length)
  else (parseCells t 0).map boardOfCells

/-- The `Sudoku` object: the mutable grid `self.board` and the snapshot
`self.original` taken at construction. -/
structure Sudoku where
  board : Board
  original : Board

/-- Reading entry `(i, j)` of a grid given as a list of rows. -/
def gridCell (g : List (List Int)) (i j : Nat) : Int :=
  ((g.get? i).getD []).getD j 0

/-- `Sudoku.load_board`: the only validation is the dimension check
`len(board) != 9 or any(len(row) != 9 for row in board)`; the entries are
then deep-copied verbatim into `board` and `original`. -/
def load_board (g : List (List Int)) : Except DimError Sudoku :=
  if g.length = 9 ∧ ∀ row ∈ g, row.length = 9 then
    .ok ⟨fun i j => gridCell g i j, fun i j => gridCell g i j⟩
  else
    .error .invalidDimensions

/-- The number of empty cells: the measure that strictly decreases at each
recursive call of `solve`. -/
def countEmpty (b : Board) : Nat :=
  ((Finset.range 9 ×ˢ Finset.range 9).filter fun p => b p.1 p.2 = 0).card

/-- Cell `(i, j)` is in the scope of the row, column or box constraint of
cell `(r, c)`; this relation is symmetric. -/
def sees (i j r c : Nat) : Prop :=
  i = r ∨ j = c ∨ (i / 3 = r / 3 ∧ j / 3 = c / 3)

/-- No cell of the 9x9 grid is empty. -/
def noEmpty (b : Board) : Prop := ∀ i, i < 9 → ∀ j, j < 9 → b i j ≠ 0

/-- Every filled cell of the grid passes `is_valid` in place. -/
def allValid (b : Board) : Prop :=
  ∀ i, i < 9 → ∀ j, j < 9 → b i j ≠ 0 → is_valid b (b i j) i j = true

/-- Every entry of the grid is an integer in `0..9` (the spec's data
model for boards). -/
def wellFormed (b : Board) : Prop :=
  ∀ i, i < 9 → ∀ j, j < 9 → 0 ≤ b i j ∧ b i j ≤ 9

/-- `bs` is a full valid assignment reachable from `b`: it keeps every
filled cell of `b`, fills every cell with a digit `1..9`, and every cell
passes `is_valid` in place. -/
def isCompletion (b bs : Board) : Prop :=
  (∀ i, i < 9 → ∀ j, j < 9 → b i j ≠ 0 → bs i j = b i j) ∧
  (∀ i, i < 9 → ∀ j, j < 9 → 1 ≤ bs i j ∧ bs i j ≤ 9) ∧
  allValid bs

/-- `num` is a digit `1..9` passing `is_valid` at `(i, j)`: a candidate in
the sense of the hint engine. -/
def isCand (b : Board) (num : Int) (i j : Nat) : Prop :=
  1 ≤ num ∧ num ≤ 9 ∧ is_valid b num i j = true

/-- A fully filled valid board: row `i` holds the digits
`(3*i + i/3 + j) % 9 + 1`, the standard shifted pattern. -/
def G : Board := fun i j => (((3 * i + i / 3 + j) % 9 : Nat) : Int) + 1

/-- `G` with the duplicate digit `G 0 1 = 2` written into cell `(0, 0)` and
cell `(8, 8)` emptied: a board whose given cells conflict but whose single
empty cell still admits a valid digit. -/
def cb1 : Board := fun i j =>
  if i = 0 ∧ j = 0 then G 0 1
  else if i = 8 ∧ j = 8 then 0
  else G i j

/-- `G` with cell `(0, 8)` emptied and a `9` written into `(1, 8)`: the
single empty cell `(0, 8)` admits no valid digit (row 0 holds `1..8`,
column 8 holds `9`). -/
def cb4 : Board := fun i j =>
  if i = 0 ∧ j = 8 then 0
  else if i = 1 ∧ j = 8 then 9
  else G i j

/-- The all-empty board produced by default construction. -/
def b0 : Board := fun _ _ => 0

/-- `G` with cell `(0, 0)` emptied: that cell's unique valid candidate is
the digit `1` (row 0 already holds `2..9`). -/
def cb5 : Board := fun i j => if i = 0 ∧ j = 0 then 0 else G i j

/-- A 9x9 grid whose entries include the out-of-range values 17 and -3. -/
def gridX : List (List Int) :=
  [17, -3, 0, 0, 0, 0, 0, 0, 0] :: List.replicate 8 (List.replicate 9 0)

/-- An 82-character puzzle string (no whitespace). -/
def s82 : List Char := List.replicate 82 '1'

/-- An 81-character puzzle string containing the invalid character `x`. -/
def sx : List Char := 'x' :: List.replicate 80 '1'

/-- An 81-character puzzle string of Arabic-Indic digit one characters
(U+0661), each a Unicode decimal digit of value 1 that Python's
`isdigit()`/`int()` accept although it is none of `.`, `0`, `1`..`9`. -/
def sArabic : List Char := List.replicate 81 '١'

/-- Whether a construction result is a success (used to state that a
parse neither raised nor failed, without fixing the resulting board). -/
def exceptIsOk (e : Except ParseError Board) : Bool :=
  match e with
  | .ok _ => true
  | .error _ => false

/-! ### Generic list lemmas: first-match characterisations of the scans -/

theorem find?_eq_some_idx {α : Type} {p : α → Bool} {l : List α} {a : α} :
    l.find? p = some a ↔ ∃ n, l.get? n = some a ∧ p a = true ∧
      ∀ k x, k < n → l.get? k = some x → p x = false := by
  induction l generalizing a with
  | nil => simp
  | cons y ys ih =>
    by_cases hy : p y
    · rw [List.find?_cons_of_pos _ hy]
      constructor
      · rintro h
        injection h with h
        subst h
        exact ⟨0, rfl, hy, by omega⟩
      · rintro ⟨n, hget, hpa, hfirst⟩
        match n with
        | 0 =>
          injection hget with hget
          subst hget; rfl
        | n + 1 =>
          have := hfirst 0 y (by omega) rfl
          rw [hy] at this
          exact absurd this (by simp)
    · rw [List.find?_cons_of_neg _ hy]
      rw [ih]
      constructor
      · rintro ⟨n, hget, hpa, hfirst⟩
        refine ⟨n + 1, by simpa using hget, hpa, ?_⟩
        intro k x hk hx
        match k with
        | 0 =>
          injection hx with hx
          subst hx
          exact Bool.eq_false_iff.mpr hy
        | k + 1 =>
          exact hfirst k x (by omega) (by simpa using hx)
      · rintro ⟨n, hget, hpa, hfirst⟩
        match n with
        | 0 =>
          injection hget with hget
          subst hget
          exact absurd hpa hy
        | n + 1 =>
          refine ⟨n, by simpa using hget, hpa, ?_⟩
          intro k x hk hx
          exact hfirst (k + 1) x (by omega) (by simpa using hx)

theorem findSome?_eq_some_idx {α β : Type} {f : α → Option β} {l : List α} {v : β} :
    l.findSome? f = some v ↔ ∃ n a, l.get? n = some a ∧ f a = some v ∧
      ∀ k x, k < n → l.get? k = some x → f x = none := by
  induction l generalizing v with
  | nil => simp
  | cons y ys ih =>
    rw [List.findSome?_cons]
    cases hy : f y with
    | some w =>
      constructor
      · rintro h
        injection h with h
        subst h
        exact ⟨0, y, rfl, hy, by omega⟩
      · rintro ⟨n, a, hget, hfa, hfirst⟩
        match n with
        | 0 =>
          injection hget with hget
          subst hget
          rw [hy] at hfa
          exact hfa
        | n + 1 =>
          have := hfirst 0 y (by omega) rfl
          rw [hy] at this
          exact absurd this (by simp)
    | none =>
      rw [ih]
      constructor
      · rintro ⟨n, a, hget, hfa, hfirst⟩
        refine ⟨n + 1, a, by simpa using hget, hfa, ?_⟩
        intro k x hk hx
        match k with
        | 0 =>
          injection hx with hx
          subst hx
          exact hy
        | k + 1 =>
          exact hfirst k x (by omega) (by simpa using hx)
      · rintro ⟨n, a, hget, hfa, hfirst⟩
        match n with
        | 0 =>
          injection hget with hget
          subst hget
          rw [hy] at hfa
          exact absurd hfa (by simp)
        | n + 1 =>
          refine ⟨n, a, by simpa using hget, hfa, ?_⟩
          intro k x hk hx
          exact hfirst (k + 1) x (by omega) (by simpa using hx)

theorem findSome?_eq_none_iff {α β : Type} {f : α → Option β} {l : List α} :
    l.findSome? f = none ↔ ∀ a ∈ l, f a = none := by
  induction l with
  | nil => simp
  | cons y ys ih =>
    rw [List.findSome?_cons]
    cases hy : f y with
    | some w => simp [hy]
    | none => simp [hy, ih]

/-- A list without duplicates all of whose elements equal `d`, and which
contains `d`, is exactly `[d]`. -/
theorem nodup_all_eq_singleton {α : Type} {l : List α} {d : α} (hd : d ∈ l)
    (hall : ∀ x ∈ l, x = d) (hnd : l.Nodup) : l = [d] := by
  match l, hd with
  | [x], _ =>
    have := hall x (by simp)
    subst this; rfl
  | x :: y :: ys, _ =>
    have hx : x = d := hall x (by simp)
    have hy : y = d := hall y (by simp)
    subst hx; subst hy
    rw [List.nodup_cons] at hnd
    exact absurd (by simp) hnd.1

/-! ### Cell scan order facts -/

theorem cellsList_get_all : ∀ k, k < 81 → cellsList.get? k = some (k / 9, k % 9) := by
  decide

theorem cellsList_get_rank : ∀ i, i < 9 → ∀ j, j < 9 →
    cellsList.get? (i * 9 + j) = some (i, j) := by
  decide

theorem cellsList_length : cellsList.length = 81 := by decide

theorem mem_cellsList (p : Nat × Nat) : p ∈ cellsList ↔ p.1 < 9 ∧ p.2 < 9 := by
  obtain ⟨i, j⟩ := p
  simp only [cellsList, List.mem_flatMap, List.mem_map, List.mem_range]
  constructor
  · rintro ⟨i', hi', j', hj', h⟩
    injection h with h1 h2
    subst h1; subst h2
    exact ⟨hi', hj'⟩
  · rintro ⟨hi, hj⟩
    exact ⟨i, hi, j, hj, rfl⟩

/-! ### setCell lemmas -/

theorem setCell_self (b : Board) (r c : Nat) (v : Int) : setCell b r c v r c = v := by
  simp [setCell]

theorem setCell_ne (b : Board) (r c : Nat) (v : Int) (i j : Nat)
    (h : ¬(i = r ∧ j = c)) : setCell b r c v i j = b i j := by
  simp [setCell, h]

theorem setCell_restore (b : Board) (r c : Nat) (v : Int) (h : b r c = 0) :
    setCell (setCell b r c v) r c 0 = b := by
  funext i j
  by_cases hij : i = r ∧ j = c
  · obtain ⟨rfl, rfl⟩ := hij
    rw [setCell_self, h]
  · rw [setCell_ne _ _ _ _ _ _ hij, setCell_ne _ _ _ _ _ _ hij]

theorem setCell_undo (b : Board) (i j : Nat) :
    setCell (setCell b i j 0) i j (b i j) = b := by
  funext i' j'
  by_cases hij : i' = i ∧ j' = j
  · obtain ⟨rfl, rfl⟩ := hij
    rw [setCell_self]
  · rw [setCell_ne _ _ _ _ _ _ hij, setCell_ne _ _ _ _ _ _ hij]

/-! ### Characterisation of is_valid -/

theorem bool_row_iff (x num : Int) (a c : Nat) :
    (!(x == num && a != c)) = true ↔ (x = num → a = c) := by
  by_cases h1 : x = num <;> by_cases h2 : a = c <;> simp [h1, h2]

theorem bool_box_iff (x num : Int) (i r j c : Nat) :
    (!(x == num && !(i == r && j == c))) = true ↔ (x = num → (i = r ∧ j = c)) := by
  by_cases h1 : x = num <;> by_cases h2 : i = r <;> by_cases h3 : j = c <;>
    simp [h1, h2, h3]

theorem is_valid_eq_true_iff (b : Board) (num : Int) (row col : Nat)
    (hr : row < 9) (hc : col < 9) :
    is_valid b num row col = true ↔
    ∀ i, i < 9 → ∀ j, j < 9 → sees i j row col → ¬(i = row ∧ j = col) →
      b i j ≠ num := by
  simp only [is_valid, Bool.and_eq_true, List.all_eq_true, List.mem_range,
    bool_row_iff, bool_box_iff]
  constructor
  · rintro ⟨⟨hrow, hcol⟩, hbox⟩ i hi j hj hsees hne heq
    unfold sees at hsees
    rcases hsees with rfl | rfl | ⟨h1, h2⟩
    · exact hne ⟨rfl, hrow j hj heq⟩
    · exact hne ⟨hcol i hi heq, rfl⟩
    · have hi' : row / 3 * 3 + i % 3 = i := by omega
      have hj' : col / 3 * 3 + j % 3 = j := by omega
      have hmain := hbox (i % 3) (by omega) (j % 3) (by omega)
      rw [hi', hj'] at hmain
      exact hne (hmain heq)
  · intro h
    refine ⟨⟨?_, ?_⟩, ?_⟩
    · intro j hj heq
      by_contra hne
      exact h row hr j hj (Or.inl rfl) (fun hand => hne hand.2) heq
    · intro i hi heq
      by_contra hne
      exact h i hi col hc (Or.inr (Or.inl rfl)) (fun hand => hne hand.1) heq
    · intro di hdi dj hdj heq
      by_contra hne
      have hi9 : row / 3 * 3 + di < 9 := by omega
      have hj9 : col / 3 * 3 + dj < 9 := by omega
      have hsees : sees (row / 3 * 3 + di) (col / 3 * 3 + dj) row col :=
        Or.inr (Or.inr ⟨by omega, by omega⟩)
      exact h _ hi9 _ hj9 hsees hne heq

theorem is_valid_setCell_eq (b : Board) (r c : Nat) (v num : Int)
    (hr : r < 9) (hc : c < 9) :
    is_valid (setCell b r c v) num r c = is_valid b num r c := by
  rw [Bool.eq_iff_iff, is_valid_eq_true_iff _ _ _ _ hr hc,
    is_valid_eq_true_iff _ _ _ _ hr hc]
  constructor
  · intro h i hi j hj hs hne
    have := h i hi j hj hs hne
    rwa [setCell_ne _ _ _ _ _ _ hne] at this
  · intro h i hi j hj hs hne
    rw [setCell_ne _ _ _ _ _ _ hne]
    exact h i hi j hj hs hne

/-! ### Characterisation of is_solved -/

theorem is_solvedAux_eq (l : List (Nat × Nat)) (b : Board)
    (hl : ∀ p ∈ l, p.1 < 9 ∧ p.2 < 9) :
    is_solvedAux l b = ((l.all fun p => is_valid b (b p.1 p.2) p.1 p.2), b) := by
  induction l with
  | nil => rfl
  | cons p rest ih =>
    obtain ⟨i, j⟩ := p
    obtain ⟨hi, hj⟩ := hl (i, j) (List.mem_cons_self _ _)
    have hv : is_valid (setCell b i j 0) (b i j) i j = is_valid b (b i j) i j :=
      is_valid_setCell_eq b i j 0 (b i j) hi hj
    have hundo : setCell (setCell b i j 0) i j (b i j) = b := setCell_undo b i j
    simp only [is_solvedAux]
    rw [hv, hundo]
    by_cases hcase : is_valid b (b i j) i j = true
    · rw [if_pos hcase, ih (fun q hq => hl q (List.mem_cons_of_mem _ hq))]
      simp [List.all_cons, hcase]
    · rw [if_neg hcase]
      have hfalse : is_valid b (b i j) i j = false := Bool.eq_false_iff.mpr hcase
      simp [List.all_cons, hfalse]

theorem is_solved_snd (b : Board) : (is_solved b).2 = b := by
  rw [is_solved]
  by_cases h : cellsList.any (fun p => b p.1 p.2 == 0) = true
  · rw [if_pos h]
  · rw [if_neg h, is_solvedAux_eq _ _ (fun p hp => (mem_cellsList p).mp hp)]

theorem is_solved_fst_iff (b : Board) :
    (is_solved b).1 = true ↔ noEmpty b ∧ allValid b := by
  rw [is_solved]
  by_cases h : cellsList.any (fun p => b p.1 p.2 == 0) = true
  · rw [if_pos h]
    constructor
    · intro hfalse
      exact absurd hfalse (by simp)
    · rintro ⟨hne, _⟩
      obtain ⟨p, hp, hb⟩ := List.any_eq_true.mp h
      obtain ⟨h1, h2⟩ := (mem_cellsList p).mp hp
      exact absurd (by exact beq_iff_eq.mp hb) (hne p.1 h1 p.2 h2)
  · rw [if_neg h, is_solvedAux_eq _ _ (fun p hp => (mem_cellsList p).mp hp)]
    simp only [List.all_eq_true]
    constructor
    · intro hall
      have hne : noEmpty b := by
        intro i hi j hj hb0
        exact h (List.any_eq_true.mpr
          ⟨(i, j), (mem_cellsList _).mpr ⟨hi, hj⟩, beq_iff_eq.mpr hb0⟩)
      refine ⟨hne, ?_⟩
      intro i hi j hj _
      exact hall (i, j) ((mem_cellsList _).mpr ⟨hi, hj⟩)
    · rintro ⟨hne, hav⟩ p hp
      obtain ⟨h1, h2⟩ := (mem_cellsList p).mp hp
      exact hav p.1 h1 p.2 h2 (hne p.1 h1 p.2 h2)

/-! ### Characterisation of find_empty -/

theorem find_empty_eq_some_iff (b : Board) (r c : Nat) :
    find_empty b = some (r, c) ↔
    r < 9 ∧ c < 9 ∧ b r c = 0 ∧
      ∀ i, i < 9 → ∀ j, j < 9 → i * 9 + j < r * 9 + c → b i j ≠ 0 := by
  rw [find_empty, find?_eq_some_idx]
  constructor
  · rintro ⟨n, hget, hp, hfirst⟩
    have h81 : n < 81 := by
      obtain ⟨h, _⟩ := List.get?_eq_some.mp hget
      simpa [cellsList_length] using h
    rw [cellsList_get_all n h81] at hget
    injection hget with hget
    have hr9 : n / 9 = r := congrArg Prod.fst hget
    have hc9 : n % 9 = c := congrArg Prod.snd hget
    refine ⟨by omega, by omega, by simpa using hp, ?_⟩
    intro i hi j hj hlt hbij
    have hk : i * 9 + j < n := by omega
    have := hfirst (i * 9 + j) (i, j) hk (cellsList_get_rank i hi j hj)
    simp only [beq_eq_false_iff_ne, ne_eq] at this
    exact this hbij
  · rintro ⟨hr, hc, hb, hfirst⟩
    refine ⟨r * 9 + c, cellsList_get_rank r hr c hc, by simpa using hb, ?_⟩
    intro k p hk hkget
    have hk81 : k < 81 := by
      have := cellsList_length
      obtain ⟨h, _⟩ := List.get?_eq_some.mp hkget
      omega
    rw [cellsList_get_all k hk81] at hkget
    injection hkget with hkget
    subst hkget
    have h1 : k / 9 < 9 := by omega
    have h2 : k % 9 < 9 := by omega
    have h3 : (k / 9) * 9 + k % 9 < r * 9 + c := by omega
    have := hfirst (k / 9) h1 (k % 9) h2 h3
    simpa using this

theorem find_empty_eq_none_iff (b : Board) :
    find_empty b = none ↔ noEmpty b := by
  rw [find_empty, List.find?_eq_none]
  constructor
  · intro h i hi j hj hb
    exact (h (i, j) ((mem_cellsList _).mpr ⟨hi, hj⟩)) (beq_iff_eq.mpr hb)
  · intro h p hp hbeq
    obtain ⟨h1, h2⟩ := (mem_cellsList p).mp hp
    exact h p.1 h1 p.2 h2 (beq_iff_eq.mp hbeq)

theorem find_empty_some (b : Board) (rc : Nat × Nat) (h : find_empty b = some rc) :
    rc.1 < 9 ∧ rc.2 < 9 ∧ b rc.1 rc.2 = 0 := by
  obtain ⟨r, c⟩ := rc
  obtain ⟨h1, h2, h3, _⟩ := (find_empty_eq_some_iff b r c).mp h
  exact ⟨h1, h2, h3⟩

/-! ### countEmpty lemmas -/

theorem countEmpty_le (b : Board) : countEmpty b ≤ 81 := by
  have h := Finset.card_filter_le (Finset.range 9 ×ˢ Finset.range 9)
    (fun p => b p.1 p.2 = 0)
  have h2 : (Finset.range 9 ×ˢ Finset.range 9).card = 81 := by
    rw [Finset.card_product, Finset.card_range]
  rw [countEmpty]
  omega

theorem countEmpty_pos (b : Board) (r c : Nat) (hr : r < 9) (hc : c < 9)
    (hb : b r c = 0) : 0 < countEmpty b := by
  rw [countEmpty]
  apply Finset.card_pos.mpr
  exact ⟨(r, c), Finset.mem_filter.mpr
    ⟨Finset.mem_product.mpr ⟨Finset.mem_range.mpr hr, Finset.mem_range.mpr hc⟩, hb⟩⟩

theorem countEmpty_setCell (b : Board) (r c : Nat) (num : Int)
    (hr : r < 9) (hc : c < 9) (hb : b r c = 0) (hnum : num ≠ 0) :
    countEmpty (setCell b r c num) = countEmpty b - 1 := by
  rw [countEmpty, countEmpty]
  have hset : ((Finset.range 9 ×ˢ Finset.range 9).filter
        fun p => setCell b r c num p.1 p.2 = 0) =
      ((Finset.range 9 ×ˢ Finset.range 9).filter fun p => b p.1 p.2 = 0).erase (r, c) := by
    ext p
    obtain ⟨i, j⟩ := p
    simp only [Finset.mem_filter, Finset.mem_erase, Finset.mem_product, Finset.mem_range]
    constructor
    · rintro ⟨⟨hi, hj⟩, hval⟩
      by_cases hij : i = r ∧ j = c
      · obtain ⟨rfl, rfl⟩ := hij
        rw [setCell_self] at hval
        exact absurd hval hnum
      · rw [setCell_ne _ _ _ _ _ _ hij] at hval
        refine ⟨?_, ⟨hi, hj⟩, hval⟩
        intro heq
        apply hij
        exact ⟨congrArg Prod.fst heq, congrArg Prod.snd heq⟩
    · rintro ⟨hne, ⟨hi, hj⟩, hval⟩
      have hij : ¬(i = r ∧ j = c) := by
        rintro ⟨rfl, rfl⟩
        exact hne rfl
      rw [setCell_ne _ _ _ _ _ _ hij]
      exact ⟨⟨hi, hj⟩, hval⟩
  rw [hset, Finset.card_erase_of_mem]
  exact Finset.mem_filter.mpr
    ⟨Finset.mem_product.mpr ⟨Finset.mem_range.mpr hr, Finset.mem_range.mpr hc⟩, hb⟩

theorem mem_nums_iff (num : Int) : num ∈ nums ↔ 1 ≤ num ∧ num ≤ 9 := by
  simp only [nums, List.mem_cons, List.not_mem_nil, or_false]
  omega

/-! ### Backtrack restoration: a failed solve leaves the board unchanged -/

theorem tryNums_false (f : Board → Option (Bool × Board))
    (hf : ∀ b b2, f b = some (false, b2) → b2 = b) (r c : Nat) :
    ∀ (l : List Int) (b b2 : Board), b r c = 0 →
      tryNums f r c l b = some (false, b2) → b2 = b := by
  intro l
  induction l with
  | nil =>
    intro b b2 hrc h
    simp only [tryNums, Option.some.injEq, Prod.mk.injEq] at h
    exact h.2.symm
  | cons num rest ih =>
    intro b b2 hrc h
    simp only [tryNums] at h
    by_cases hv : is_valid b num r c = true
    · rw [if_pos hv] at h
      cases hrec : f (setCell b r c num) with
      | none =>
        rw [hrec] at h
        exact absurd h (by simp)
      | some p =>
        obtain ⟨flag, b1⟩ := p
        rw [hrec] at h
        cases flag with
        | true =>
          have h' : some ((true : Bool), b1) = some ((false : Bool), b2) := h
          simp at h'
        | false =>
          have h' : tryNums f r c rest (setCell b1 r c 0) = some (false, b2) := h
          have hb1 : b1 = setCell b r c num := hf _ _ hrec
          subst hb1
          rw [setCell_restore b r c num hrc] at h'
          exact ih b b2 hrc h'
    · rw [if_neg hv] at h
      exact ih b b2 hrc h

theorem solveFuel_false : ∀ (fuel : Nat) (b b2 : Board),
    solveFuel fuel b = some (false, b2) → b2 = b := by
  intro fuel
  induction fuel with
  | zero =>
    intro b b2 h
    exact absurd h (by simp [solveFuel])
  | succ f ih =>
    intro b b2 h
    simp only [solveFuel] at h
    cases hfe : find_empty b with
    | none =>
      rw [hfe] at h
      have h' : some ((true : Bool), b) = some ((false : Bool), b2) := h
      simp at h'
    | some rc =>
      rw [hfe] at h
      obtain ⟨_, _, hrc⟩ := find_empty_some b rc hfe
      exact tryNums_false (solveFuel f) ih rc.1 rc.2 nums b b2 hrc h

/-! ### Fuel monotonicity and sufficiency -/

theorem tryNums_mono (f g : Board → Option (Bool × Board))
    (hfg : ∀ b res, f b = some res → g b = some res) (r c : Nat) :
    ∀ (l : List Int) (b : Board) (res), tryNums f r c l b = some res →
      tryNums g r c l b = some res := by
  intro l
  induction l with
  | nil =>
    intro b res h
    simpa [tryNums] using h
  | cons num rest ih =>
    intro b res h
    simp only [tryNums] at h ⊢
    by_cases hv : is_valid b num r c = true
    · rw [if_pos hv] at h ⊢
      cases hrec : f (setCell b r c num) with
      | none =>
        rw [hrec] at h
        exact absurd h (by simp)
      | some p =>
        obtain ⟨flag, b1⟩ := p
        rw [hrec] at h
        rw [hfg _ _ hrec]
        cases flag with
        | true => exact h
        | false => exact ih _ _ h
    · rw [if_neg hv] at h ⊢
      exact ih _ _ h

theorem solveFuel_mono : ∀ (f : Nat) (b : Board) (res),
    solveFuel f b = some res → solveFuel (f + 1) b = some res := by
  intro f
  induction f with
  | zero =>
    intro b res h
    exact absurd h (by simp [solveFuel])
  | succ f ih =>
    intro b res h
    simp only [solveFuel] at h ⊢
    cases hfe : find_empty b with
    | none =>
      rw [hfe] at h
      exact h
    | some rc =>
      rw [hfe] at h
      exact tryNums_mono _ _ ih rc.1 rc.2 nums b res h

theorem solveFuel_le_mono (f g : Nat) (hfg : f ≤ g) (b : Board) (res : Bool × Board)
    (h : solveFuel f b = some res) : solveFuel g b = some res := by
  induction g with
  | zero =>
    have hf0 : f = 0 := by omega
    subst hf0
    exact h
  | succ g ih =>
    by_cases hfg' : f = g + 1
    · subst hfg'
      exact h
    · exact solveFuel_mono g b res (ih (by omega))

theorem tryNums_some (f : Nat)
    (hS : ∀ b, countEmpty b < f → ∃ res, solveFuel f b = some res)
    (r c : Nat) (hr : r < 9) (hc : c < 9) :
    ∀ (l : List Int) (b : Board), (∀ num ∈ l, num ≠ 0) → b r c = 0 →
      countEmpty b ≤ f →
      ∃ res, tryNums (solveFuel f) r c l b = some res := by
  intro l
  induction l with
  | nil =>
    intro b _ _ _
    exact ⟨(false, b), by simp [tryNums]⟩
  | cons num rest ih =>
    intro b hnz hrc hcount
    simp only [tryNums]
    by_cases hv : is_valid b num r c = true
    · rw [if_pos hv]
      have hlt : countEmpty (setCell b r c num) < f := by
        rw [countEmpty_setCell b r c num hr hc hrc (hnz num (List.mem_cons_self _ _))]
        have := countEmpty_pos b r c hr hc hrc
        omega
      obtain ⟨res, hres⟩ := hS _ hlt
      rw [hres]
      obtain ⟨flag, b1⟩ := res
      cases flag with
      | true => exact ⟨(true, b1), rfl⟩
      | false =>
        have hb1 : b1 = setCell b r c num := solveFuel_false f _ _ hres
        subst hb1
        obtain ⟨res2, hres2⟩ :=
          ih b (fun x hx => hnz x (List.mem_cons_of_mem _ hx)) hrc hcount
        refine ⟨res2, ?_⟩
        show tryNums (solveFuel f) r c rest
          (setCell (setCell b r c num) r c 0) = some res2
        rw [setCell_restore b r c num hrc]
        exact hres2
    · rw [if_neg hv]
      exact ih b (fun x hx => hnz x (List.mem_cons_of_mem _ hx)) hrc hcount

theorem solveFuel_some : ∀ (f : Nat) (b : Board), countEmpty b < f →
    ∃ res, solveFuel f b = some res := by
  intro f
  induction f with
  | zero =>
    intro b h
    omega
  | succ f ih =>
    intro b hcount
    cases hfe : find_empty b with
    | none => exact ⟨(true, b), by simp only [solveFuel]; rw [hfe]⟩
    | some rc =>
      obtain ⟨h1, h2, h3⟩ := find_empty_some b rc hfe
      have hnz : ∀ num ∈ nums, num ≠ 0 := by decide
      obtain ⟨res, hres⟩ :=
        tryNums_some f ih rc.1 rc.2 h1 h2 nums b hnz h3 (by omega)
      exact ⟨res, by simp only [solveFuel]; rw [hfe]; exact hres⟩

theorem solveFuel82 (b : Board) : solveFuel 82 b = some (solve b) := by
  obtain ⟨res, hres⟩ := solveFuel_some 82 b (by have := countEmpty_le b; omega)
  rw [solve, hres]
  rfl

/-! ### Soundness: a successful solve yields a valid full board -/

theorem sees_symm (i j r c : Nat) (h : sees i j r c) : sees r c i j := by
  unfold sees at h ⊢
  rcases h with h | h | ⟨h1, h2⟩
  · exact Or.inl h.symm
  · exact Or.inr (Or.inl h.symm)
  · exact Or.inr (Or.inr ⟨h1.symm, h2.symm⟩)

theorem is_valid_mono (b b2 : Board) (num : Int) (r c : Nat)
    (hr : r < 9) (hc : c < 9) (hnum : num ≠ 0)
    (hsub : ∀ i, i < 9 → ∀ j, j < 9 → b i j ≠ 0 → b2 i j = b i j)
    (hv : is_valid b2 num r c = true) : is_valid b num r c = true := by
  rw [is_valid_eq_true_iff _ _ _ _ hr hc] at hv ⊢
  intro i hi j hj hs hne heq
  have hb2 : b2 i j = b i j := hsub i hi j hj (by rw [heq]; exact hnum)
  exact hv i hi j hj hs hne (by rw [hb2, heq])

theorem allValid_setCell (b : Board) (r c : Nat) (num : Int)
    (hr : r < 9) (hc : c < 9) (hb : b r c = 0) (_hnum1 : 1 ≤ num)
    (hv : is_valid b num r c = true) (hav : allValid b) :
    allValid (setCell b r c num) := by
  intro i hi j hj hne0
  by_cases hij : i = r ∧ j = c
  · obtain ⟨rfl, rfl⟩ := hij
    rw [setCell_self]
    rw [is_valid_setCell_eq b i j num num hi hj]
    exact hv
  · rw [setCell_ne _ _ _ _ _ _ hij] at hne0 ⊢
    have hold := hav i hi j hj hne0
    rw [is_valid_eq_true_iff _ _ _ _ hi hj] at hold ⊢
    intro i2 hi2 j2 hj2 hs hne heq
    by_cases hij2 : i2 = r ∧ j2 = c
    · obtain ⟨rfl, rfl⟩ := hij2
      rw [setCell_self] at heq
      rw [is_valid_eq_true_iff _ _ _ _ hr hc] at hv
      have hs2 : sees i j i2 j2 := sees_symm i2 j2 i j hs
      exact hv i hi j hj hs2 hij (by rw [← heq])
    · rw [setCell_ne _ _ _ _ _ _ hij2] at heq
      exact hold i2 hi2 j2 hj2 hs hne heq

theorem tryNums_true (f : Nat)
    (hS : ∀ b b2, allValid b → solveFuel f b = some (true, b2) →
      (∀ i, i < 9 → ∀ j, j < 9 → b i j ≠ 0 → b2 i j = b i j) ∧ noEmpty b2 ∧
      allValid b2 ∧
      (∀ i, i < 9 → ∀ j, j < 9 → b i j = 0 → 1 ≤ b2 i j ∧ b2 i j ≤ 9))
    (r c : Nat) (hr : r < 9) (hc : c < 9) :
    ∀ (l : List Int) (b b2 : Board), (∀ num ∈ l, 1 ≤ num ∧ num ≤ 9) →
      b r c = 0 → allValid b → tryNums (solveFuel f) r c l b = some (true, b2) →
      (∀ i, i < 9 → ∀ j, j < 9 → b i j ≠ 0 → b2 i j = b i j) ∧ noEmpty b2 ∧
      allValid b2 ∧
      (∀ i, i < 9 → ∀ j, j < 9 → b i j = 0 → 1 ≤ b2 i j ∧ b2 i j ≤ 9) := by
  intro l
  induction l with
  | nil =>
    intro b b2 _ _ _ h
    simp only [tryNums, Option.some.injEq, Prod.mk.injEq] at h
    exact absurd h.1 (by simp)
  | cons num rest ih =>
    intro b b2 hmem hrc hav h
    obtain ⟨h1n, h9n⟩ := hmem num (List.mem_cons_self _ _)
    simp only [tryNums] at h
    by_cases hv : is_valid b num r c = true
    · rw [if_pos hv] at h
      cases hrec : solveFuel f (setCell b r c num) with
      | none =>
        rw [hrec] at h
        exact absurd h (by simp)
      | some p =>
        obtain ⟨flag, b1⟩ := p
        rw [hrec] at h
        cases flag with
        | true =>
          have h' : some ((true : Bool), b1) = some ((true : Bool), b2) := h
          simp only [Option.some.injEq, Prod.mk.injEq, true_and] at h'
          subst h'
          have hav2 : allValid (setCell b r c num) :=
            allValid_setCell b r c num hr hc hrc h1n hv hav
          obtain ⟨hkeep, hne, hav3, hrange⟩ := hS _ _ hav2 hrec
          refine ⟨?_, hne, hav3, ?_⟩
          · intro i hi j hj hne0
            have hij : ¬(i = r ∧ j = c) := by
              rintro ⟨rfl, rfl⟩
              exact hne0 hrc
            have hkp := hkeep i hi j hj
              (by rw [setCell_ne _ _ _ _ _ _ hij]; exact hne0)
            rwa [setCell_ne _ _ _ _ _ _ hij] at hkp
          · intro i hi j hj h0
            by_cases hij : i = r ∧ j = c
            · obtain ⟨rfl, rfl⟩ := hij
              have hb2num : b1 i j = num := by
                have hkp := hkeep i hi j hj (by rw [setCell_self]; omega)
                rwa [setCell_self] at hkp
              rw [hb2num]
              exact ⟨h1n, h9n⟩
            · exact hrange i hi j hj
                (by rw [setCell_ne _ _ _ _ _ _ hij]; exact h0)
        | false =>
          have h' : tryNums (solveFuel f) r c rest
              (setCell b1 r c 0) = some (true, b2) := h
          have hb1 : b1 = setCell b r c num := solveFuel_false f _ _ hrec
          subst hb1
          rw [setCell_restore b r c num hrc] at h'
          exact ih b b2 (fun x hx => hmem x (List.mem_cons_of_mem _ hx)) hrc hav h'
    · rw [if_neg hv] at h
      exact ih b b2 (fun x hx => hmem x (List.mem_cons_of_mem _ hx)) hrc hav h

theorem solveFuel_true : ∀ (f : Nat) (b b2 : Board), allValid b →
    solveFuel f b = some (true, b2) →
    (∀ i, i < 9 → ∀ j, j < 9 → b i j ≠ 0 → b2 i j = b i j) ∧ noEmpty b2 ∧
    allValid b2 ∧
    (∀ i, i < 9 → ∀ j, j < 9 → b i j = 0 → 1 ≤ b2 i j ∧ b2 i j ≤ 9) := by
  intro f
  induction f with
  | zero =>
    intro b b2 _ h
    exact absurd h (by simp [solveFuel])
  | succ f ih =>
    intro b b2 hav h
    simp only [solveFuel] at h
    cases hfe : find_empty b with
    | none =>
      rw [hfe] at h
      have h' : some ((true : Bool), b) = some ((true : Bool), b2) := h
      simp only [Option.some.injEq, Prod.mk.injEq, true_and] at h'
      subst h'
      have hne : noEmpty b := (find_empty_eq_none_iff b).mp hfe
      refine ⟨fun i hi j hj _ => rfl, hne, hav, ?_⟩
      intro i hi j hj h0
      exact absurd h0 (hne i hi j hj)
    | some rc =>
      rw [hfe] at h
      obtain ⟨h1, h2, h3⟩ := find_empty_some b rc hfe
      have hmem : ∀ num ∈ nums, 1 ≤ num ∧ num ≤ 9 := by decide
      exact tryNums_true f ih rc.1 rc.2 h1 h2 nums b b2 hmem h3 hav h

/-! ### Completeness: if a full valid extension exists, solve finds one -/

theorem tryNums_complete (f : Nat)
    (hC : ∀ b, countEmpty b < f → (∃ bs, isCompletion b bs) →
      ∃ b2, solveFuel f b = some (true, b2))
    (r c : Nat) (hr : r < 9) (hc : c < 9) :
    ∀ (l : List Int) (b : Board), (∀ x ∈ l, x ≠ 0) → b r c = 0 →
      countEmpty b ≤ f →
      (∃ w ∈ l, is_valid b w r c = true ∧ w ≠ 0 ∧
        ∃ bs, isCompletion (setCell b r c w) bs) →
      ∃ b2, tryNums (solveFuel f) r c l b = some (true, b2) := by
  intro l
  induction l with
  | nil =>
    rintro b _ _ _ ⟨w, hwmem, _⟩
    exact absurd hwmem (by simp)
  | cons num rest ih =>
    rintro b hl0 hrc hcount ⟨w, hwmem, hwv, hwnz, bs, hbs⟩
    simp only [tryNums]
    by_cases hv : is_valid b num r c = true
    · rw [if_pos hv]
      have hnum0 : num ≠ 0 := hl0 num (List.mem_cons_self _ _)
      have hlt : countEmpty (setCell b r c num) < f := by
        rw [countEmpty_setCell b r c num hr hc hrc hnum0]
        have := countEmpty_pos b r c hr hc hrc
        omega
      obtain ⟨res, hres⟩ := solveFuel_some f _ hlt
      obtain ⟨flag, b1⟩ := res
      cases flag with
      | true =>
        rw [hres]
        exact ⟨b1, rfl⟩
      | false =>
        rw [hres]
        have hb1 : b1 = setCell b r c num := solveFuel_false f _ _ hres
        subst hb1
        rcases List.mem_cons.mp hwmem with rfl | hwrest
        · exfalso
          obtain ⟨b2, hb2⟩ := hC (setCell b r c w) hlt ⟨bs, hbs⟩
          rw [hres] at hb2
          simp at hb2
        · obtain ⟨b2, hb2⟩ :=
            ih b (fun x hx => hl0 x (List.mem_cons_of_mem _ hx)) hrc hcount
              ⟨w, hwrest, hwv, hwnz, bs, hbs⟩
          refine ⟨b2, ?_⟩
          show tryNums (solveFuel f) r c rest
            (setCell (setCell b r c num) r c 0) = some (true, b2)
          rw [setCell_restore b r c num hrc]
          exact hb2
    · rw [if_neg hv]
      rcases List.mem_cons.mp hwmem with rfl | hwrest
      · exact absurd hwv hv
      · exact ih b (fun x hx => hl0 x (List.mem_cons_of_mem _ hx)) hrc hcount
          ⟨w, hwrest, hwv, hwnz, bs, hbs⟩

theorem solveFuel_complete : ∀ (f : Nat) (b : Board), countEmpty b < f →
    (∃ bs, isCompletion b bs) → ∃ b2, solveFuel f b = some (true, b2) := by
  intro f
  induction f with
  | zero =>
    intro b h _
    omega
  | succ f ih =>
    rintro b hcount ⟨bs, hext, hrange, hav⟩
    cases hfe : find_empty b with
    | none => exact ⟨b, by simp only [solveFuel]; rw [hfe]⟩
    | some rc =>
      obtain ⟨h1, h2, h3⟩ := find_empty_some b rc hfe
      have hd1 : 1 ≤ bs rc.1 rc.2 ∧ bs rc.1 rc.2 ≤ 9 := hrange rc.1 h1 rc.2 h2
      have hdval_bs : is_valid bs (bs rc.1 rc.2) rc.1 rc.2 = true :=
        hav rc.1 h1 rc.2 h2 (by omega)
      have hdval : is_valid b (bs rc.1 rc.2) rc.1 rc.2 = true :=
        is_valid_mono b bs (bs rc.1 rc.2) rc.1 rc.2 h1 h2 (by omega) hext hdval_bs
      have hmem : bs rc.1 rc.2 ∈ nums := (mem_nums_iff _).mpr hd1
      have hcompletion : isCompletion (setCell b rc.1 rc.2 (bs rc.1 rc.2)) bs := by
        refine ⟨?_, hrange, hav⟩
        intro i hi j hj hne0
        by_cases hij : i = rc.1 ∧ j = rc.2
        · obtain ⟨rfl, rfl⟩ := hij
          rw [setCell_self]
        · rw [setCell_ne _ _ _ _ _ _ hij] at hne0
          rw [setCell_ne _ _ _ _ _ _ hij]
          exact hext i hi j hj hne0
      have hnz : ∀ x ∈ nums, x ≠ 0 := by decide
      obtain ⟨b2, hb2⟩ := tryNums_complete f ih rc.1 rc.2 h1 h2 nums b hnz h3
        (by omega) ⟨bs rc.1 rc.2, hmem, hdval, by omega, bs, hcompletion⟩
      exact ⟨b2, by simp only [solveFuel]; rw [hfe]; exact hb2⟩

/-! ### Hint engine lemmas -/

theorem nums_nodup : nums.Nodup := by decide

theorem nums_get : ∀ n, n < 9 → nums.get? n = some ((n : Int) + 1) := by decide

theorem valid_nums_eq_singleton_iff (b : Board) (i j : Nat) (d : Int) :
    valid_nums b i j = [d] ↔
    (isCand b d i j ∧ ∀ e, isCand b e i j → e = d) := by
  unfold valid_nums isCand
  constructor
  · intro h
    have hd_mem : d ∈ nums.filter (fun num => is_valid b num i j) := by
      rw [h]
      simp
    rw [List.mem_filter, mem_nums_iff] at hd_mem
    obtain ⟨⟨hd1, hd9⟩, hdv⟩ := hd_mem
    refine ⟨⟨hd1, hd9, hdv⟩, ?_⟩
    rintro e ⟨he1, he9, hev⟩
    have he_mem : e ∈ nums.filter (fun num => is_valid b num i j) :=
      List.mem_filter.mpr ⟨(mem_nums_iff e).mpr ⟨he1, he9⟩, hev⟩
    rw [h] at he_mem
    simpa using he_mem
  · rintro ⟨⟨hd1, hd9, hdv⟩, huniq⟩
    apply nodup_all_eq_singleton
    · exact List.mem_filter.mpr ⟨(mem_nums_iff d).mpr ⟨hd1, hd9⟩, hdv⟩
    · intro x hx
      rw [List.mem_filter, mem_nums_iff] at hx
      exact huniq x ⟨hx.1.1, hx.1.2, hx.2⟩
    · exact List.Nodup.filter _ nums_nodup

theorem nums_find_eq_some_iff (q : Int → Bool) (d : Int) :
    nums.find? q = some d ↔
    (1 ≤ d ∧ d ≤ 9 ∧ q d = true ∧ ∀ e, 1 ≤ e → e < d → q e = false) := by
  rw [find?_eq_some_idx]
  constructor
  · rintro ⟨n, hget, hq, hfirst⟩
    have hn9 : n < 9 := by
      by_contra hn
      rw [List.get?_eq_none.mpr (by simp [nums]; omega)] at hget
      exact absurd hget (by simp)
    rw [nums_get n hn9] at hget
    injection hget with hget
    refine ⟨by omega, by omega, hq, ?_⟩
    intro e he1 hed
    have hk9 : (e - 1).toNat < n := by omega
    have hket : (((e - 1).toNat : Nat) : Int) + 1 = e := by omega
    exact hfirst (e - 1).toNat e hk9 (by rw [nums_get _ (by omega), hket])
  · rintro ⟨hd1, hd9, hq, hleast⟩
    refine ⟨(d - 1).toNat, ?_, hq, ?_⟩
    · rw [nums_get _ (by omega)]
      congr 1
      omega
    · intro k x hk hx
      have hk9 : k < 9 := by omega
      rw [nums_get _ hk9] at hx
      injection hx with hx
      subst hx
      exact hleast _ (by omega) (by omega)

theorem get_hint_phase1 (b : Board) (r c : Nat) (d : Int)
    (hr : r < 9) (hc : c < 9) (hb0 : b r c = 0)
    (hcand : isCand b d r c) (huniq : ∀ e, isCand b e r c → e = d)
    (hearlier : ∀ i, i < 9 → ∀ j, j < 9 → i * 9 + j < r * 9 + c → b i j = 0 →
      ¬ ∃ e, isCand b e i j ∧ ∀ x, isCand b x i j → x = e) :
    get_hint b = some (r, c, d) := by
  have hvn : valid_nums b r c = [d] :=
    (valid_nums_eq_singleton_iff b r c d).mpr ⟨hcand, huniq⟩
  have hphase1 : hintPhase1 b = some (r, c, d) := by
    rw [hintPhase1]
    apply findSome?_eq_some_idx.mpr
    refine ⟨r * 9 + c, (r, c), cellsList_get_rank r hr c hc, ?_, ?_⟩
    · rw [if_pos hb0, hvn]
      rfl
    · intro k x hk hx
      have hk81 : k < 81 := by omega
      rw [cellsList_get_all k hk81] at hx
      injection hx with hx
      subst hx
      have hi : k / 9 < 9 := by omega
      have hj : k % 9 < 9 := by omega
      by_cases hb0k : b (k / 9) (k % 9) = 0
      · rw [if_pos hb0k]
        have hlen : (valid_nums b (k / 9) (k % 9)).length ≠ 1 := by
          intro hlen1
          obtain ⟨e, he⟩ := List.length_eq_one.mp hlen1
          have := (valid_nums_eq_singleton_iff b (k / 9) (k % 9) e).mp he
          exact hearlier (k / 9) hi (k % 9) hj (by omega) hb0k ⟨e, this⟩
        rw [if_neg hlen]
      · rw [if_neg hb0k]
  rw [get_hint, hphase1]

theorem get_hint_phase2 (b : Board) (r c : Nat) (d : Int)
    (hnouniq : ∀ i, i < 9 → ∀ j, j < 9 → b i j = 0 →
      ¬ ∃ e, isCand b e i j ∧ ∀ x, isCand b x i j → x = e)
    (hr : r < 9) (hc : c < 9) (hb0 : b r c = 0)
    (hcand : isCand b d r c)
    (hleast : ∀ e, 1 ≤ e → e < d → is_valid b e r c = false)
    (hearlier : ∀ i, i < 9 → ∀ j, j < 9 → i * 9 + j < r * 9 + c → b i j = 0 →
      ∀ e, ¬ isCand b e i j) :
    get_hint b = some (r, c, d) := by
  obtain ⟨hd1, hd9, hdv⟩ := hcand
  have hphase1 : hintPhase1 b = none := by
    rw [hintPhase1, findSome?_eq_none_iff]
    intro p hp
    obtain ⟨hi, hj⟩ := (mem_cellsList p).mp hp
    by_cases hb0p : b p.1 p.2 = 0
    · rw [if_pos hb0p]
      have hlen : (valid_nums b p.1 p.2).length ≠ 1 := by
        intro hlen1
        obtain ⟨e, he⟩ := List.length_eq_one.mp hlen1
        have := (valid_nums_eq_singleton_iff b p.1 p.2 e).mp he
        exact hnouniq p.1 hi p.2 hj hb0p ⟨e, this⟩
      rw [if_neg hlen]
    · rw [if_neg hb0p]
  have hphase2 : hintPhase2 b = some (r, c, d) := by
    rw [hintPhase2]
    apply findSome?_eq_some_idx.mpr
    refine ⟨r * 9 + c, (r, c), cellsList_get_rank r hr c hc, ?_, ?_⟩
    · rw [if_pos hb0]
      have hfind : (nums.find? fun num => is_valid b num r c) = some d :=
        (nums_find_eq_some_iff _ d).mpr ⟨hd1, hd9, hdv, hleast⟩
      rw [hfind]
      rfl
    · intro k x hk hx
      have hk81 : k < 81 := by omega
      rw [cellsList_get_all k hk81] at hx
      injection hx with hx
      subst hx
      have hi : k / 9 < 9 := by omega
      have hj : k % 9 < 9 := by omega
      by_cases hb0k : b (k / 9) (k % 9) = 0
      · rw [if_pos hb0k]
        have hfind : (nums.find? fun num => is_valid b num (k / 9) (k % 9)) = none := by
          rw [List.find?_eq_none]
          intro x hx
          rw [mem_nums_iff] at hx
          intro hvx
          exact hearlier (k / 9) hi (k % 9) hj (by omega) hb0k x ⟨hx.1, hx.2, hvx⟩
        rw [hfind]
        rfl
      · rw [if_neg hb0k]
  rw [get_hint, hphase1, hphase2]

theorem get_hint_none_iff (b : Board) :
    get_hint b = none ↔
    ∀ i, i < 9 → ∀ j, j < 9 → b i j = 0 → ∀ e, 1 ≤ e → e ≤ 9 →
      is_valid b e i j = false := by
  constructor
  · intro h
    have h2 : hintPhase2 b = none := by
      rw [get_hint] at h
      cases h1 : hintPhase1 b with
      | some x =>
        rw [h1] at h
        exact absurd h (by simp)
      | none =>
        rw [h1] at h
        exact h
    rw [hintPhase2, findSome?_eq_none_iff] at h2
    intro i hi j hj hb0 e he1 he9
    have hcell := h2 (i, j) ((mem_cellsList _).mpr ⟨hi, hj⟩)
    rw [if_pos hb0] at hcell
    have hfind : (nums.find? fun num => is_valid b num i j) = none := by
      cases hf : nums.find? fun num => is_valid b num i j with
      | none => rfl
      | some x =>
        rw [hf] at hcell
        exact absurd hcell (by simp)
    rw [List.find?_eq_none] at hfind
    have := hfind e ((mem_nums_iff e).mpr ⟨he1, he9⟩)
    exact Bool.not_eq_true _ ▸ Bool.eq_false_iff.mpr this
  · intro h
    have hnone2 : hintPhase2 b = none := by
      rw [hintPhase2, findSome?_eq_none_iff]
      intro p hp
      obtain ⟨hi, hj⟩ := (mem_cellsList p).mp hp
      by_cases hb0 : b p.1 p.2 = 0
      · rw [if_pos hb0]
        have hfind : (nums.find? fun num => is_valid b num p.1 p.2) = none := by
          rw [List.find?_eq_none]
          intro x hx
          rw [mem_nums_iff] at hx
          rw [h p.1 hi p.2 hj hb0 x hx.1 hx.2]
          simp
        rw [hfind]
        rfl
      · rw [if_neg hb0]
    have hnone1 : hintPhase1 b = none := by
      rw [hintPhase1, findSome?_eq_none_iff]
      intro p hp
      obtain ⟨hi, hj⟩ := (mem_cellsList p).mp hp
      by_cases hb0 : b p.1 p.2 = 0
      · rw [if_pos hb0]
        have hvn : valid_nums b p.1 p.2 = [] := by
          rw [valid_nums, List.filter_eq_nil_iff]
          intro x hx
          rw [mem_nums_iff] at hx
          rw [h p.1 hi p.2 hj hb0 x hx.1 hx.2]
          simp
        rw [hvn]
        simp
      · rw [if_neg hb0]
    rw [get_hint, hnone1, hnone2]

/-! ### Parsing lemmas -/

/-- The characters accepted by `from_string`: `.`, `0`, or a digit
`1..9`. -/
def allowedChar (c : Char) : Prop := c = '.' ∨ c = '0' ∨ ('1' ≤ c ∧ c ≤ '9')

instance (c : Char) : Decidable (allowedChar c) := by
  unfold allowedChar
  infer_instance

theorem ndBasesSupp_ge : ∀ b ∈ ndBasesSupp, 128 ≤ b := by decide

theorem digitOnlyRanges_ge : ∀ r ∈ digitOnlyRanges, 128 ≤ r.1 := by decide

theorem char_le_toNat (a c : Char) : a ≤ c ↔ a.toNat ≤ c.toNat := by
  rw [Char.le_def]
  exact ⟨fun h => h, fun h => h⟩

theorem char_eq_of_toNat (c d : Char) (h : c.toNat = d.toNat) : c = d :=
  Char.eq_of_val_eq (UInt32.eq_of_toBitVec_eq (BitVec.eq_of_toNat_eq h))

/-- On the ASCII range the decimal-digit table reduces to `'0'..'9'`,
whatever the Unicode version: every supplementary range starts beyond
ASCII. -/
theorem pyDecDigit_ascii (c : Char) (h : c.toNat < 128) :
    pyDecDigit c =
      if 0x30 ≤ c.toNat ∧ c.toNat ≤ 0x39 then some (c.toNat - 0x30)
      else none := by
  unfold pyDecDigit
  by_cases hr : 0x30 ≤ c.toNat ∧ c.toNat ≤ 0x39
  · rw [if_pos hr, if_pos hr]
  · rw [if_neg hr, if_neg hr]
    rw [findSome?_eq_none_iff]
    intro b hb
    have hge := ndBasesSupp_ge b hb
    rw [if_neg (by omega)]

/-- No ASCII character is an isdigit-but-not-decimal character. -/
theorem pyDigitNonDec_ascii (c : Char) (h : c.toNat < 128) :
    pyDigitNonDec c = false := by
  refine List.any_eq_false.mpr ?_
  intro r hr
  have hge := digitOnlyRanges_ge r hr
  simp only [decide_eq_true_eq, not_and]
  omega

/-- On ASCII characters the decoder rejects exactly the characters outside
`. 0 1..9` — the claim's character set. -/
theorem charCell_ascii_none_iff (c : Char) (hc : c.toNat < 128) :
    charCell c = none ↔ ¬ allowedChar c := by
  unfold charCell allowedChar
  have h19 : ('1' ≤ c ∧ c ≤ '9') ↔ (0x31 ≤ c.toNat ∧ c.toNat ≤ 0x39) := by
    rw [char_le_toNat, char_le_toNat]
    exact Iff.rfl
  by_cases h : c = '.' ∨ c = '0'
  · rw [if_pos h]
    simp
    tauto
  · rw [if_neg h, pyDecDigit_ascii c hc]
    by_cases hr : 0x30 ≤ c.toNat ∧ c.toNat ≤ 0x39
    · rw [if_pos hr]
      by_cases h0 : c.toNat = 0x30
      · exact absurd (Or.inr (char_eq_of_toNat c '0' h0)) h
      · show (if 1 ≤ c.toNat - 0x30 ∧ c.toNat - 0x30 ≤ 9 then
            some ((c.toNat - 0x30 : Nat) : Int) else none) = none ↔ _
        rw [if_pos (show 1 ≤ c.toNat - 0x30 ∧ c.toNat - 0x30 ≤ 9 by omega)]
        constructor
        · intro hsome
          exact absurd hsome (by simp)
        · intro hnall
          exact absurd (Or.inr (Or.inr (h19.mpr ⟨by omega, by omega⟩))) hnall
    · rw [if_neg hr]
      constructor
      · intro _
        rintro (h1 | h1 | h1)
        · exact h (Or.inl h1)
        · exact h (Or.inr h1)
        · have h2 := h19.mp h1
          exact hr ⟨by omega, by omega⟩
      · intro _
        rfl

theorem parseCells_no_length_error : ∀ (l : List Char) (pos n : Nat),
    parseCells l pos ≠ .error (.invalidLength n) := by
  intro l
  induction l with
  | nil =>
    intro pos n h
    exact absurd h (by simp [parseCells])
  | cons c rest ih =>
    intro pos n h
    simp only [parseCells] at h
    cases hc : charCell c with
    | some v =>
      rw [hc] at h
      cases hp : parseCells rest (pos + 1) with
      | ok cells =>
        rw [hp] at h
        exact absurd h (by simp [Except.map])
      | error e =>
        rw [hp] at h
        have he : e = ParseError.invalidLength n := by
          simpa [Except.map] using h
        exact ih (pos + 1) n (by rw [hp, he])
    | none =>
      rw [hc] at h
      by_cases hnd : pyDigitNonDec c = true
      · rw [if_pos hnd] at h
        simp at h
      · rw [if_neg hnd] at h
        simp at h

theorem parseCells_error_char : ∀ (l : List Char) (pos : Nat) (c : Char) (p : Nat),
    parseCells l pos = .error (.invalidCharacter c p) →
    pos ≤ p ∧ l.get? (p - pos) = some c ∧ charCell c = none := by
  intro l
  induction l with
  | nil =>
    intro pos c p h
    exact absurd h (by simp [parseCells])
  | cons c0 rest ih =>
    intro pos c p h
    simp only [parseCells] at h
    cases hc : charCell c0 with
    | some v =>
      rw [hc] at h
      cases hp : parseCells rest (pos + 1) with
      | ok cells =>
        rw [hp] at h
        exact absurd h (by simp [Except.map])
      | error e =>
        rw [hp] at h
        have he : e = ParseError.invalidCharacter c p := by
          simpa [Except.map] using h
        obtain ⟨hle, hget, hcc⟩ := ih (pos + 1) c p (by rw [hp, he])
        refine ⟨by omega, ?_, hcc⟩
        have hsub : p - pos = (p - (pos + 1)) + 1 := by omega
        rw [hsub]
        simpa using hget
    | none =>
      rw [hc] at h
      by_cases hnd : pyDigitNonDec c0 = true
      · rw [if_pos hnd] at h
        simp at h
      · rw [if_neg hnd] at h
        simp only [Except.error.injEq, ParseError.invalidCharacter.injEq] at h
        obtain ⟨rfl, rfl⟩ := h
        refine ⟨le_refl _, ?_, hc⟩
        simp [Nat.sub_self]

theorem parseCells_error_exists : ∀ (l : List Char) (pos : Nat),
    (∀ c ∈ l, pyDigitNonDec c = false) →
    (∃ c ∈ l, charCell c = none) →
    ∃ c p, parseCells l pos = .error (.invalidCharacter c p) := by
  intro l
  induction l with
  | nil =>
    rintro pos _ ⟨c, hc, _⟩
    exact absurd hc (by simp)
  | cons c0 rest ih =>
    rintro pos hnd ⟨c, hc, hcc⟩
    cases hc0 : charCell c0 with
    | none =>
      have hnd0 : pyDigitNonDec c0 = false := hnd c0 (List.mem_cons_self _ _)
      exact ⟨c0, pos, by simp [parseCells, hc0, hnd0]⟩
    | some v =>
      have hcrest : c ∈ rest := by
        rcases List.mem_cons.mp hc with rfl | h
        · rw [hc0] at hcc
          exact absurd hcc (by simp)
        · exact h
      obtain ⟨c2, p2, hp2⟩ := ih (pos + 1)
        (fun x hx => hnd x (List.mem_cons_of_mem _ hx)) ⟨c, hcrest, hcc⟩
      refine ⟨c2, p2, ?_⟩
      simp [parseCells, hc0, hp2, Except.map]

theorem parseCells_ok : ∀ (l : List Char) (pos : Nat),
    (∀ c ∈ l, charCell c ≠ none) →
    ∃ cells, parseCells l pos = .ok cells ∧
      ∀ k, cells.get? k = (l.get? k).bind charCell := by
  intro l
  induction l with
  | nil =>
    intro pos _
    exact ⟨[], rfl, fun k => by simp⟩
  | cons c0 rest ih =>
    intro pos hall
    cases hc0 : charCell c0 with
    | none => exact absurd hc0 (hall c0 (List.mem_cons_self _ _))
    | some v =>
      obtain ⟨cells, hok, hget⟩ :=
        ih (pos + 1) (fun x hx => hall x (List.mem_cons_of_mem _ hx))
      refine ⟨v :: cells, ?_, ?_⟩
      · simp [parseCells, hc0, hok, Except.map]
      · intro k
        match k with
        | 0 => simp [hc0]
        | k + 1 => simpa using hget k

theorem from_string_eq (s : List Char) :
    from_string s =
      if (pystrip s).length ≠ 81 then
        .error (.invalidLength (pystrip s).length)
      else (parseCells (pystrip s) 0).map boardOfCells := rfl

/-! ### Claim theorems -/

/-- Claim C1, amended: for a 9x9 starting board whose entries lie in `0..9`
and whose filled cells each pass `is_valid` in place, `solve` returns true
iff a full valid assignment reachable from the board (a completion) exists,
and whenever it returns true the board afterwards is fully and validly
assigned (`is_solved` returns true).  Without the conflict-free-start
hypothesis the claim fails, see `solve_true_not_solved_cex`. -/
theorem solve_iff_completion (b : Board) (hwf : wellFormed b)
    (hav : allValid b) :
    ((solve b).1 = true ↔ ∃ bs, isCompletion b bs) ∧
    ((solve b).1 = true → (is_solved (solve b).2).1 = true) := by
  have h82 := solveFuel82 b
  have hforward : (solve b).1 = true →
      (∀ i, i < 9 → ∀ j, j < 9 → b i j ≠ 0 → (solve b).2 i j = b i j) ∧
      noEmpty (solve b).2 ∧ allValid (solve b).2 ∧
      (∀ i, i < 9 → ∀ j, j < 9 → b i j = 0 →
        1 ≤ (solve b).2 i j ∧ (solve b).2 i j ≤ 9) := by
    intro htrue
    have hsf : solveFuel 82 b = some (true, (solve b).2) := by
      rw [h82]
      congr 1
      exact Prod.ext htrue rfl
    exact solveFuel_true 82 b (solve b).2 hav hsf
  constructor
  · constructor
    · intro htrue
      obtain ⟨hkeep, hne, hav2, hrange⟩ := hforward htrue
      refine ⟨(solve b).2, hkeep, ?_, hav2⟩
      intro i hi j hj
      by_cases h0 : b i j = 0
      · exact hrange i hi j hj h0
      · have heq := hkeep i hi j hj h0
        have hb := hwf i hi j hj
        rw [heq]
        omega
    · rintro ⟨bs, hbs⟩
      obtain ⟨b2, hb2⟩ :=
        solveFuel_complete 82 b (by have := countEmpty_le b; omega) ⟨bs, hbs⟩
      have hsome : some (solve b) = some ((true : Bool), b2) := by
        rw [← h82, hb2]
      have h' : solve b = (true, b2) := by injection hsome
      rw [h']
  · intro htrue
    obtain ⟨_, hne, hav2, _⟩ := hforward htrue
    exact (is_solved_fst_iff _).mpr ⟨hne, hav2⟩

/-- Counterexample to claim C1 as stated: on the board `cb1`, whose given
cells already conflict (two `2`s in row 0), `solve` returns true, yet the
resulting board does not satisfy `is_solved`, and no full valid assignment
exists. -/
theorem solve_true_not_solved_cex :
    (solve cb1).1 = true ∧ (is_solved (solve cb1).2).1 = false := by
  constructor
  · decide
  · decide

/-- Witness for claim C1 at the all-empty board. -/
theorem solve_iff_completion_witness :
    ((solve b0).1 = true ↔ ∃ bs, isCompletion b0 bs) ∧
    ((solve b0).1 = true → (is_solved (solve b0).2).1 = true) :=
  solve_iff_completion b0 (by intro i _ j _; simp [b0])
    (by intro i _ j _ h; exact absurd rfl h)

/-- Claim C2: if `solve` returns false, every cell of the board after the
call holds exactly the value it held before the call. -/
theorem solve_false_restores (b : Board) (h : (solve b).1 = false) :
    ∀ i, i < 9 → ∀ j, j < 9 → (solve b).2 i j = b i j := by
  have hsf : solveFuel 82 b = some (false, (solve b).2) := by
    rw [solveFuel82 b]
    congr 1
    exact Prod.ext h rfl
  have hrest := solveFuel_false 82 b (solve b).2 hsf
  intro i _ j _
  rw [hrest]

/-- Witness for claim C2 at the unsolvable board `cb4`. -/
theorem solve_false_restores_witness :
    (solve cb4).1 = false ∧
      ∀ i, i < 9 → ∀ j, j < 9 → (solve cb4).2 i j = cb4 i j :=
  ⟨by decide, solve_false_restores cb4 (by decide)⟩

/-- Claim C3: `is_valid digit row col` is true iff no cell other than
`(row, col)` itself in the same row, column or 3x3 box (boxes grouping
index triples `[0-2], [3-5], [6-8]`, i.e. equal quotients by 3) currently
holds `digit`. -/
theorem is_valid_conflict_iff (b : Board) (num : Int) (row col : Nat)
    (_h1 : 1 ≤ num) (_h9 : num ≤ 9) (hr : row < 9) (hc : col < 9) :
    is_valid b num row col = true ↔
    ∀ i, i < 9 → ∀ j, j < 9 →
      (i = row ∨ j = col ∨ (i / 3 = row / 3 ∧ j / 3 = col / 3)) →
      ¬(i = row ∧ j = col) → b i j ≠ num :=
  is_valid_eq_true_iff b num row col hr hc

/-- Witness for claim C3 at the full board `G`, digit 5, cell (0, 0). -/
theorem is_valid_conflict_iff_witness :
    is_valid G 5 0 0 = true ↔
    ∀ i, i < 9 → ∀ j, j < 9 →
      (i = 0 ∨ j = 0 ∨ (i / 3 = 0 / 3 ∧ j / 3 = 0 / 3)) →
      ¬(i = 0 ∧ j = 0) → G i j ≠ 5 :=
  is_valid_conflict_iff G 5 0 0 (by norm_num) (by norm_num) (by norm_num)
    (by norm_num)

/-- Claim C4, amended: `get_hint` returns none iff no empty cell admits any
valid digit `1..9` — so it returns none not only on a fully filled board
but also on a stuck board that still has empty cells, see
`get_hint_none_with_empty_cex`. -/
theorem get_hint_none_iff_stuck (b : Board) :
    get_hint b = none ↔
    ∀ i, i < 9 → ∀ j, j < 9 → b i j = 0 → ∀ e, 1 ≤ e → e ≤ 9 →
      is_valid b e i j = false :=
  get_hint_none_iff b

/-- Counterexample to claim C4 as stated: `cb4` has an empty cell at
`(0, 8)` yet `get_hint` returns none (no digit is valid there). -/
theorem get_hint_none_with_empty_cex :
    cb4 0 8 = 0 ∧ get_hint cb4 = none := by
  constructor
  · decide
  · decide

/-- Witness for claim C4 at the fully filled board `G`. -/
theorem get_hint_none_iff_stuck_witness : get_hint G = none :=
  (get_hint_none_iff_stuck G).mpr (by
    intro i _ j _ h0
    exfalso
    simp only [G] at h0
    omega)

/-- Claim C5: the two-phase hint policy: if an empty cell with exactly one
candidate exists, `get_hint` returns the row-major-first such cell with its
unique candidate; otherwise it returns the row-major-first empty cell
having any candidate, with the smallest digit valid there. -/
theorem get_hint_two_phase (b : Board) :
    (∀ r c d, r < 9 → c < 9 → b r c = 0 →
      isCand b d r c → (∀ e, isCand b e r c → e = d) →
      (∀ i, i < 9 → ∀ j, j < 9 → i * 9 + j < r * 9 + c → b i j = 0 →
        ¬ ∃ e, isCand b e i j ∧ ∀ x, isCand b x i j → x = e) →
      get_hint b = some (r, c, d)) ∧
    ((∀ i, i < 9 → ∀ j, j < 9 → b i j = 0 →
        ¬ ∃ e, isCand b e i j ∧ ∀ x, isCand b x i j → x = e) →
      ∀ r c d, r < 9 → c < 9 → b r c = 0 → isCand b d r c →
      (∀ e, 1 ≤ e → e < d → is_valid b e r c = false) →
      (∀ i, i < 9 → ∀ j, j < 9 → i * 9 + j < r * 9 + c → b i j = 0 →
        ∀ e, ¬ isCand b e i j) →
      get_hint b = some (r, c, d)) :=
  ⟨fun r c d hr hc hb0 hcand huniq hearlier =>
      get_hint_phase1 b r c d hr hc hb0 hcand huniq hearlier,
    fun hnouniq r c d hr hc hb0 hcand hleast hearlier =>
      get_hint_phase2 b r c d hnouniq hr hc hb0 hcand hleast hearlier⟩

/-- Witness for claim C5: on `cb5` the empty cell `(0, 0)` has the unique
candidate `1`, and `get_hint` returns it. -/
theorem get_hint_two_phase_witness : get_hint cb5 = some (0, 0, 1) :=
  (get_hint_two_phase cb5).1 0 0 1 (by norm_num) (by norm_num) (by decide)
    ⟨by norm_num, by norm_num, by decide⟩
    (by
      rintro e ⟨he1, he9, hev⟩
      have hmem : e ∈ nums := (mem_nums_iff e).mpr ⟨he1, he9⟩
      simp only [nums, List.mem_cons, List.not_mem_nil, or_false] at hmem
      rcases hmem with rfl | rfl | rfl | rfl | rfl | rfl | rfl | rfl | rfl
      · rfl
      all_goals (exfalso; revert hev; decide))
    (by intro i _ j _ hlt _; omega)

/-- Claim C6, amended: construction from a character string strips all
whitespace first and fails with an invalid-length error carrying the
stripped length exactly when that length is not 81.  For strings whose
stripped characters are ASCII it fails with an invalid-character error,
naming the offending character and its flat 0-based position, exactly when
some character of the stripped 81-character string is not `.`, `0` or
`1..9`, and otherwise succeeds with `.` and `0` both decoding to empty.
The ASCII restriction is forced: the program also accepts non-ASCII
Unicode decimal digits (see `from_string_unicode_digit_cex`), and an
isdigit-but-not-decimal character makes `int()` raise a different,
uncaught error. -/
theorem from_string_spec (s : List Char) :
    ((∃ n, from_string s = Except.error (ParseError.invalidLength n)) ↔
      (pystrip s).length ≠ 81) ∧
    (∀ n, from_string s = Except.error (ParseError.invalidLength n) →
      n = (pystrip s).length) ∧
    ((∀ c ∈ pystrip s, c.toNat < 128) →
      ((∃ c p, from_string s = Except.error (ParseError.invalidCharacter c p)) ↔
        ((pystrip s).length = 81 ∧ ∃ c ∈ pystrip s, ¬ allowedChar c)) ∧
      (∀ c p, from_string s = Except.error (ParseError.invalidCharacter c p) →
        (pystrip s).get? p = some c ∧ ¬ allowedChar c) ∧
      (((pystrip s).length = 81 ∧ ∀ c ∈ pystrip s, allowedChar c) →
        ∃ bd, from_string s = Except.ok bd ∧
          ∀ i, i < 9 → ∀ j, j < 9 →
            some (bd i j) = ((pystrip s).get? (i * 9 + j)).bind charCell)) ∧
    (∀ c, c = '.' ∨ c = '0' → charCell c = some 0) := by
  by_cases hlen : (pystrip s).length = 81
  case neg =>
    have hfs : from_string s = .error (.invalidLength (pystrip s).length) := by
      rw [from_string_eq, if_pos hlen]
    refine ⟨⟨fun _ => hlen, fun _ => ⟨_, hfs⟩⟩, ?_, ?_, ?_⟩
    · intro n h
      rw [hfs] at h
      simp only [Except.error.injEq, ParseError.invalidLength.injEq] at h
      exact h.symm
    · intro _
      refine ⟨?_, ?_, ?_⟩
      · constructor
        · rintro ⟨c, p, h⟩
          rw [hfs] at h
          exact absurd h (by simp)
        · rintro ⟨h81, _⟩
          exact absurd h81 hlen
      · intro c p h
        rw [hfs] at h
        exact absurd h (by simp)
      · rintro ⟨h81, _⟩
        exact absurd h81 hlen
    · rintro c (rfl | rfl) <;> rfl
  case pos =>
    have hfs : from_string s = (parseCells (pystrip s) 0).map boardOfCells := by
      rw [from_string_eq, if_neg (by omega)]
    have hchar_err : ∀ c p,
        from_string s = .error (.invalidCharacter c p) ↔
        parseCells (pystrip s) 0 = .error (.invalidCharacter c p) := by
      intro c p
      rw [hfs]
      cases hp : parseCells (pystrip s) 0 with
      | ok cells => simp [Except.map]
      | error e => simp [Except.map]
    refine ⟨?_, ?_, ?_, ?_⟩
    · constructor
      · rintro ⟨n, h⟩
        rw [hfs] at h
        cases hp : parseCells (pystrip s) 0 with
        | ok cells =>
          rw [hp] at h
          exact absurd h (by simp [Except.map])
        | error e =>
          rw [hp] at h
          have he : e = .invalidLength n := by simpa [Except.map] using h
          exact absurd (show parseCells (pystrip s) 0 =
              Except.error (ParseError.invalidLength n) by rw [hp, he])
            (parseCells_no_length_error (pystrip s) 0 n)
      · intro h
        exact absurd hlen h
    · intro n h
      exfalso
      rw [hfs] at h
      cases hp : parseCells (pystrip s) 0 with
      | ok cells =>
        rw [hp] at h
        exact absurd h (by simp [Except.map])
      | error e =>
        rw [hp] at h
        have he : e = .invalidLength n := by simpa [Except.map] using h
        exact parseCells_no_length_error (pystrip s) 0 n (by rw [hp, he])
    · intro hascii
      refine ⟨?_, ?_, ?_⟩
      · constructor
        · rintro ⟨c, p, h⟩
          obtain ⟨_, hget, hcc⟩ :=
            parseCells_error_char _ 0 c p ((hchar_err c p).mp h)
          rw [Nat.sub_zero] at hget
          have hcmem := List.get?_mem hget
          exact ⟨hlen, c, hcmem,
            (charCell_ascii_none_iff c (hascii c hcmem)).mp hcc⟩
        · rintro ⟨_, c, hcmem, hcbad⟩
          obtain ⟨c2, p2, hp2⟩ := parseCells_error_exists (pystrip s) 0
            (fun x hx => pyDigitNonDec_ascii x (hascii x hx))
            ⟨c, hcmem, (charCell_ascii_none_iff c (hascii c hcmem)).mpr hcbad⟩
          exact ⟨c2, p2, (hchar_err c2 p2).mpr hp2⟩
      · intro c p h
        obtain ⟨_, hget, hcc⟩ :=
          parseCells_error_char _ 0 c p ((hchar_err c p).mp h)
        rw [Nat.sub_zero] at hget
        have hcmem := List.get?_mem hget
        exact ⟨hget, (charCell_ascii_none_iff c (hascii c hcmem)).mp hcc⟩
      · rintro ⟨_, hall⟩
        obtain ⟨cells, hok, hget⟩ := parseCells_ok (pystrip s) 0
          (fun c hc hnone =>
            (charCell_ascii_none_iff c (hascii c hc)).mp hnone (hall c hc))
        refine ⟨boardOfCells cells, ?_, ?_⟩
        · rw [hfs, hok]
          rfl
        · intro i hi j hj
          have hidx : i * 9 + j < (pystrip s).length := by omega
          have hsome : (pystrip s).get? (i * 9 + j) =
              some ((pystrip s).get ⟨i * 9 + j, hidx⟩) := List.get?_eq_get hidx
          have hcmem : (pystrip s).get ⟨i * 9 + j, hidx⟩ ∈ pystrip s :=
            List.get_mem _ _ _
          have hcsome : ∃ v,
              charCell ((pystrip s).get ⟨i * 9 + j, hidx⟩) = some v := by
            cases hv : charCell ((pystrip s).get ⟨i * 9 + j, hidx⟩) with
            | none =>
              exact absurd (hall _ hcmem)
                ((charCell_ascii_none_iff _ (hascii _ hcmem)).mp hv)
            | some v => exact ⟨v, rfl⟩
          obtain ⟨v, hv⟩ := hcsome
          have hfinal : (some ((pystrip s).get ⟨i * 9 + j, hidx⟩)).bind charCell =
              some v := hv
          show some ((cells.get? (i * 9 + j)).getD 0) = _
          rw [hget (i * 9 + j), hsome, hfinal]
          rfl
    · rintro c (rfl | rfl) <;> rfl

/-- Counterexample to claim C6 as stated: the 81-character string of
Arabic-Indic digit one characters is accepted by the program (Python's
`isdigit()`/`int()` read each as the decimal digit 1), although every one
of its characters is outside the claim's set `. 0 1..9` — so failure with
an invalid-character error is not "exactly when" a character is outside
that set. -/
theorem from_string_unicode_digit_cex :
    (pystrip sArabic).length = 81 ∧
    (∃ c ∈ pystrip sArabic, ¬ allowedChar c) ∧
    exceptIsOk (from_string sArabic) = true :=
  ⟨by decide, by decide, by decide⟩

/-- Witness for claim C6: an 82-character string fails with the
invalid-length error and an 81-character ASCII string containing `x` fails
with the invalid-character error. -/
theorem from_string_spec_witness :
    (∃ n, from_string s82 = Except.error (ParseError.invalidLength n)) ∧
    (∃ c p, from_string sx = Except.error (ParseError.invalidCharacter c p)) :=
  ⟨(from_string_spec s82).1.mpr (by decide),
    ((from_string_spec sx).2.2.1 (by decide)).1.mpr (by decide)⟩

/-- Claim C7: calling `is_solved` never changes the board, on the true and
the false return path alike. -/
theorem is_solved_never_mutates (b : Board) :
    ∀ i j, (is_solved b).2 i j = b i j := by
  intro i j
  rw [is_solved_snd b]

/-- Claim C8: `find_empty` returns the first cell holding 0 in row-major
order (rank `i * 9 + j`), and none exactly when no cell holds 0. -/
theorem find_empty_spec (b : Board) :
    (∀ r c, find_empty b = some (r, c) ↔
      (r < 9 ∧ c < 9 ∧ b r c = 0 ∧
        ∀ i, i < 9 → ∀ j, j < 9 → i * 9 + j < r * 9 + c → b i j ≠ 0)) ∧
    (find_empty b = none ↔ ∀ i, i < 9 → ∀ j, j < 9 → b i j ≠ 0) :=
  ⟨fun r c => find_empty_eq_some_iff b r c, find_empty_eq_none_iff b⟩

/-- Witness for claim C8: on `cb4` the first (row-major) empty cell is
`(0, 8)`. -/
theorem find_empty_spec_witness : find_empty cb4 = some (0, 8) :=
  ((find_empty_spec cb4).1 0 8).mpr (by decide)

/-- Claim C9: `solve` terminates on every starting board: any fuel above
81 (the maximal number of empty cells, one recursion level per empty cell)
makes the fuelled search return, with a result independent of the fuel. -/
theorem solve_terminates (b : Board) (f : Nat) (h : 81 < f) :
    solveFuel f b = some (solve b) :=
  solveFuel_le_mono 82 f (by omega) b (solve b) (solveFuel82 b)

/-- Witness for claim C9 at the all-empty board. -/
theorem solve_terminates_witness : solveFuel 82 b0 = some (solve b0) :=
  solve_terminates b0 82 (by norm_num)

/-- Claim C10: grid construction validates only the dimensions; any
integer entries, including values outside `0..9`, are accepted and stored
verbatim in both `board` and `original`. -/
theorem load_board_verbatim (g : List (List Int)) (h9 : g.length = 9)
    (hrow : ∀ row ∈ g, row.length = 9) :
    ∃ s, load_board g = Except.ok s ∧
      ∀ i, i < 9 → ∀ j, j < 9 →
        s.board i j = gridCell g i j ∧ s.original i j = gridCell g i j := by
  rw [load_board, if_pos ⟨h9, hrow⟩]
  exact ⟨_, rfl, fun i _ j _ => ⟨rfl, rfl⟩⟩

/-- Witness for claim C10 at the grid `gridX` containing entries 17 and
-3. -/
theorem load_board_verbatim_witness :
    ∃ s, load_board gridX = Except.ok s ∧
      ∀ i, i < 9 → ∀ j, j < 9 →
        s.board i j = gridCell gridX i j ∧ s.original i j = gridCell gridX i j :=
  load_board_verbatim gridX (by decide) (by decide)
